import Mathlib

/-!
Verification of the document-path resolution model of the M5Docs VS Code
helper (`src/extension.ts`).

Strings are modelled as `List Char` (JavaScript strings, which the code
manipulates with `split`, `join`, `slice`, `lastIndexOf`, `endsWith`,
`startsWith`, `replace`). File paths, language codes and URLs are all such
character lists. External collaborators (the editor API, the filesystem,
Node's `os.networkInterfaces`, the WHATWG `URL` constructor) are modelled
as explicit inputs or, where a concrete model is needed, as clearly
documented definitions.
-/

namespace M5Docs

/-- JS string, as in the TypeScript source. -/
abbrev Str := List Char

/-- Function `toPosix` from the source: `p.replace(/\\/g, '/')`. -/
def toPosix (p : Str) : Str :=
  p.map (fun c => if c = '\\' then '/' else c)

/-- JS `s.split('/')`: splits on every `'/'`, keeping empty pieces;
`"".split('/')` is `[""]`. -/
def splitSlash : Str → List Str
  | [] => [[]]
  | c :: cs =>
    if c = '/' then [] :: splitSlash cs
    else
      match splitSlash cs with
      | [] => [[c]]
      | s :: ss => (c :: s) :: ss

/-- JS `parts.join('/')`. -/
def joinSlash : List Str → Str
  | [] => []
  | [s] => s
  | s :: rest => s ++ '/' :: joinSlash rest

/-- JS `Array.prototype.lastIndexOf`: index of the last element equal to
`a`, or `none` (JS: `-1`). -/
def lastIdxOf : List Str → Str → Option Nat
  | [], _ => none
  | x :: xs, a =>
    match lastIdxOf xs a with
    | some i => some (i + 1)
    | none => if x = a then some 0 else none

/-- JS `s.replace(/\/+$/, '')`: drop all trailing slashes. -/
def dropTrailingSlashes (p : Str) : Str :=
  (p.reverse.dropWhile (fun c => c = '/')).reverse

/-- JS `s.replace(/^\/+/, '')`: drop all leading slashes. -/
def dropLeadingSlashes (p : Str) : Str :=
  p.dropWhile (fun c => c = '/')

/-- The basename step of Node's `path.posix.extname`: trailing slashes are
ignored, then everything after the last `'/'` is the basename. -/
def basenamePosix (p : Str) : Str :=
  ((dropTrailingSlashes p).reverse.takeWhile (fun c => c ≠ '/')).reverse

/-- The extension of a basename, per Node's `path.posix.extname`: from the
last `'.'` to the end, except that a leading-dot-only name (dot at index 0)
and the special name `".."` have no extension. -/
def extnameOfBase (base : Str) : Str :=
  let afterDot := base.reverse.takeWhile (fun c => c ≠ '.')
  if afterDot.length = base.length then []
  else
    let dotIdx := base.length - afterDot.length - 1
    if dotIdx = 0 ∨ base = ['.', '.'] then [] else base.drop dotIdx

/-- Node `path.posix.extname`, as called at line 63 of the source. -/
def extname (p : Str) : Str :=
  extnameOfBase (basenamePosix p)

/-- JS `l.endsWith(suf)`. -/
def endsWithChars (l suf : Str) : Bool :=
  decide (suf.length ≤ l.length ∧ l.drop (l.length - suf.length) = suf)

/-- Lines 63–67 of `parseDocInfo`: strip the extension from
`relPathWithExt`; when `treatReadmeAsIndex` is set and the result ends in
`"/README"`, the regex `replace(/\/README$/, '')` removes that suffix
(7 characters). -/
def stripExtAndIndex (relPathWithExt : Str) (treatReadmeAsIndex : Bool) : Str :=
  let ext := extname relPathWithExt
  let noExt := relPathWithExt.take (relPathWithExt.length - ext.length)
  if treatReadmeAsIndex ∧ endsWithChars noExt ("/README".data) then
    noExt.take (noExt.length - ("/README".data).length)
  else noExt

/-- Structure `DocInfo` from the source. -/
structure DocInfo where
  lang : Str
  relPathWithExt : Str
  relPathNoExt : Str
  staticDir : Str
deriving DecidableEq

/-- Function `parseDocInfo` from the source (lines 49–75). The `uri.fsPath` input is
the path string; `parts[staticIdx + 1]` being out of range behaves like JS
(`undefined` is never `includes`-member, hence `null`). -/
def parseDocInfo (fsPath : Str) (languages : List Str) (staticDir : Str)
    (treatReadmeAsIndex : Bool) : Option DocInfo :=
  let fsPathPosix := toPosix fsPath
  let parts := splitSlash fsPathPosix
  match lastIdxOf parts staticDir with
  | none => none
  | some staticIdx =>
    match parts.get? (staticIdx + 1) with
    | none => none
    | some lang =>
      if lang ∈ languages then
        let relParts := parts.drop (staticIdx + 2)
        if relParts.isEmpty then none
        else
          let relPathWithExt := joinSlash relParts
          some ⟨lang, relPathWithExt,
                stripExtAndIndex relPathWithExt treatReadmeAsIndex, staticDir⟩
      else none

/-- Scan `n, n-1, …, 0` for the largest index satisfying `p`. -/
def findLastFrom (p : Nat → Bool) : Nat → Option Nat
  | 0 => if p 0 then some 0 else none
  | n + 1 => if p (n + 1) then some (n + 1) else findLastFrom p n

/-- JS `hay.lastIndexOf(needle)` for strings: the largest index at which
`needle` occurs as a contiguous substring, `none` for JS `-1`. -/
def lastSubstrIdx (hay needle : Str) : Option Nat :=
  if needle.length ≤ hay.length then
    findLastFrom (fun i => decide ((hay.drop i).take needle.length = needle))
      (hay.length - needle.length)
  else none

/-- Function `buildTargetFileUri` from the source (lines 78–89); the `throw` on a
missing needle is modelled as `none`. -/
def buildTargetFileUri (sourcePath : Str) (targetLang : Str) (info : DocInfo) :
    Option Str :=
  let fsPathPosix := toPosix sourcePath
  let needle := '/' :: (info.staticDir ++ '/' :: (info.lang ++ '/' :: info.relPathWithExt))
  match lastSubstrIdx fsPathPosix needle with
  | none => none
  | some idx =>
    let root := fsPathPosix.take idx
    some (root ++ '/' :: (info.staticDir ++ '/' :: (targetLang ++ '/' :: info.relPathWithExt)))

/-- The resolve-then-rebuild composition used by the `openSibling.<lang>`
commands: `parseDocInfo` on the source path, then `buildTargetFileUri` on
the same path for `targetLang`. -/
def openSiblingRoundTrip (p : Str) (languages : List Str) (staticDir : Str)
    (treatReadmeAsIndex : Bool) (targetLang : Str) : Option Str :=
  (parseDocInfo p languages staticDir treatReadmeAsIndex).bind
    (fun info => buildTargetFileUri p targetLang info)

/-- A document path of the shape `<pre>/<staticDir>/<lang>/<relative path>`,
with the relative path given as its list of segments. -/
def mkDocPath (pre sd lang : Str) (P : List Str) : Str :=
  pre ++ '/' :: (sd ++ '/' :: (lang ++ '/' :: joinSlash P))

/-- A path segment that survives `toPosix` and `split('/')` unchanged:
it contains neither a slash nor a backslash. -/
def cleanSeg (s : Str) : Prop := '/' ∉ s ∧ '\\' ∉ s

instance (s : Str) : Decidable (cleanSeg s) := by
  unfold cleanSeg; infer_instance

/-- Function `buildUrl` from the source (lines 127–131): the string handed to
`vscode.Uri.parse` — base with trailing slashes stripped, `/`, the language,
`/`, the relative path with leading slashes stripped. -/
def buildUrl (base : Str) (lang : Str) (relPathNoExt : Str) : Str :=
  let baseTrim := dropTrailingSlashes base
  let pathPart := dropLeadingSlashes relPathNoExt
  baseTrim ++ '/' :: (lang ++ '/' :: pathPart)

/-- The non-empty path segments of a URL pathname, as computed at line 157:
`u.pathname.split('/').filter(Boolean)`. -/
def urlSegs (pathname : Str) : List Str :=
  (splitSlash pathname).filter (fun s => !s.isEmpty)

/-- Function `parseUrlToLangAndRel` from the source (lines 153–166). The WHATWG
`new URL` constructor is abstracted as `urlParse`, which yields the URL's
pathname, or `none` when the constructor would throw (the `catch` branch). -/
def parseUrlToLangAndRel (urlParse : Str → Option Str) (urlStr : Str)
    (languages : List Str) : Option (Str × Str) :=
  match urlParse urlStr with
  | none => none
  | some pathname =>
    let segs := urlSegs pathname
    if segs.length < 2 then none
    else
      let lang := segs.headD []
      if lang ∈ languages then some (lang, joinSlash segs.tail) else none

/-- Scheme splitter: the part before the first `"://"` and the part after
it, or `none` when no `"://"` occurs. -/
def splitScheme : Str → Option (Str × Str)
  | [] => none
  | c :: rest =>
    if c = ':' ∧ rest.take 2 = "//".data then some ([], rest.drop 2)
    else (splitScheme rest).map (fun pr => (c :: pr.1, pr.2))

/-- Modelled from the spec: the WHATWG `URL` constructor used by
`parseUrlToLangAndRel` ("parse into components"), restricted to
`scheme://host[:port][/path]` URLs; returns the pathname (query and
fragment excluded, `"/"` for an empty path), or `none` where the real
constructor throws (no scheme separator, or an empty scheme or authority). -/
def urlPathname (s : Str) : Option Str :=
  match splitScheme s with
  | none => none
  | some (scheme, rest) =>
    if scheme = [] then none
    else
      let authority := rest.takeWhile (fun c => c != '/')
      if authority = [] then none
      else
        let p := (rest.dropWhile (fun c => c != '/')).takeWhile
          (fun c => c != '?' && c != '#')
        if p = [] then some ['/'] else some p

/-- The components of a parsed base URL, as used by `patchBaseHost`. -/
structure UrlM where
  protocol : Str
  hostname : Str
  port : Str
  path : Str
deriving DecidableEq

/-- Modelled from the spec: the WHATWG `URL` constructor used by
`patchBaseHost`, restricted to `scheme://host[:port][/path]` URLs with no
query or fragment; `none` where the real constructor throws. An empty path
serializes as `"/"`, matching `new URL("http://h:1").pathname`. -/
def parseHttpBase (s : Str) : Option UrlM :=
  match splitScheme s with
  | none => none
  | some (scheme, rest) =>
    if scheme = [] then none
    else
      let authority := rest.takeWhile (fun c => c != '/')
      if authority = [] then none
      else
        let host := authority.takeWhile (fun c => c != ':')
        if host = [] then none
        else
          let port := (authority.dropWhile (fun c => c != ':')).drop 1
          let p := rest.dropWhile (fun c => c != '/')
          some ⟨scheme, host, port, if p = [] then ['/'] else p⟩

/-- Serializer `URL#toString` for the modelled components. -/
def urlToString (u : UrlM) : Str :=
  u.protocol ++ "://".data ++ u.hostname ++
    (if u.port = [] then [] else ':' :: u.port) ++ u.path

/-- Function `patchBaseHost` from the source (lines 36–46): when the base parses and
its host is a loopback name and a LAN address is available, substitute the
host; always re-serialize with trailing slashes stripped; return the base
verbatim when parsing throws. -/
def patchBaseHost (base : Str) (lan : Option Str) : Str :=
  match parseHttpBase base with
  | none => base
  | some u =>
    let u' :=
      match lan with
      | some ip =>
        if u.hostname = "127.0.0.1".data ∨ u.hostname = "localhost".data then
          { u with hostname := ip }
        else u
      | none => u
    dropTrailingSlashes (urlToString u')

/-- One entry of `os.networkInterfaces()`, flattened: the enumeration order
is `Object.keys` order, then per-interface address order. -/
structure IfAddr where
  family : Str
  internal : Bool
  address : Str
deriving DecidableEq

/-- The filter at line 25: `addr.family === 'IPv4' && !addr.internal`. -/
def isLanCandidate (a : IfAddr) : Bool :=
  decide (a.family = "IPv4".data) && !a.internal

/-- JS `ip.startsWith('192.168.')`. -/
def startsWith192 (ip : Str) : Bool :=
  decide (ip.take 8 = "192.168.".data)

/-- The loop of `getLanIPv4Prefer192` (lines 23–31) with its `fallbacks`
accumulator: return the first non-internal IPv4 address in `192.168.*`
immediately; otherwise collect candidates and end with `fallbacks[0] ?? null`. -/
def getLanGo : List IfAddr → List Str → Option Str
  | [], fallbacks => fallbacks.head?
  | a :: rest, fallbacks =>
    if isLanCandidate a then
      if startsWith192 a.address then some a.address
      else getLanGo rest (fallbacks ++ [a.address])
    else getLanGo rest fallbacks

/-- Function `getLanIPv4Prefer192` from the source (lines 20–33), over the flattened
interface-address list. -/
def getLanIPv4Prefer192 (addrs : List IfAddr) : Option Str :=
  getLanGo addrs []

/-- A workspace folder: its display name and its filesystem path. -/
structure WsFolder where
  name : Str
  fsPath : Str
deriving DecidableEq

/-- The probe path `vscode.Uri.joinPath(f.uri, staticDir, languages[0])`
from line 145, modelled as posix joining. -/
def probePath (f : WsFolder) (staticDir : Str) (lang0 : Str) : Str :=
  f.fsPath ++ '/' :: (staticDir ++ '/' :: lang0)

/-- Function `pickDocsWorkspace` from the source (lines 134–150). The filesystem
`exists` check is the oracle `ex`; an absent `preferredName` is the empty
string (JS falsiness treats `undefined` and `''` alike); `languages[0]` is
`languages.headD []`. -/
def pickDocsWorkspace (ex : Str → Bool) (staticDir : Str) (languages : List Str)
    (preferredName : Str) (folders : List WsFolder) : Option WsFolder :=
  if folders.isEmpty then none
  else
    match
      (if preferredName = [] then none
       else folders.find? (fun f => decide (f.name = preferredName))) with
    | some f => some f
    | none =>
      match folders.find? (fun f => ex (probePath f staticDir (languages.headD []))) with
      | some f => some f
      | none => folders.head?

/-! Basic lemmas about the path primitives. -/

theorem toPosix_of_no_backslash {l : Str} (h : '\\' ∉ l) : toPosix l = l := by
  induction l with
  | nil => rfl
  | cons c cs ih =>
    simp only [List.mem_cons, not_or] at h
    have hc : ¬ c = '\\' := fun hc => h.1 hc.symm
    simp only [toPosix, List.map_cons, if_neg hc]
    exact congrArg (c :: ·) (ih h.2)

theorem splitSlash_ne_nil (l : Str) : splitSlash l ≠ [] := by
  cases l with
  | nil => simp [splitSlash]
  | cons c cs =>
    simp only [splitSlash]
    split
    · simp
    · split <;> simp

theorem splitSlash_cons_slash (cs : Str) :
    splitSlash ('/' :: cs) = [] :: splitSlash cs := rfl

theorem splitSlash_cons_of_ne {c : Char} {cs s : Str} {ss : List Str}
    (hc : c ≠ '/') (hs : splitSlash cs = s :: ss) :
    splitSlash (c :: cs) = (c :: s) :: ss := by
  simp only [splitSlash, if_neg hc, hs]

theorem splitSlash_append (a b : Str) :
    splitSlash (a ++ '/' :: b) = splitSlash a ++ splitSlash b := by
  induction a with
  | nil => simp [splitSlash]
  | cons c cs ih =>
    by_cases hc : c = '/'
    · subst hc
      rw [List.cons_append, splitSlash_cons_slash, splitSlash_cons_slash, ih]
      rfl
    · obtain ⟨s, ss, hs⟩ := List.exists_cons_of_ne_nil (splitSlash_ne_nil cs)
      have hs2 : splitSlash (cs ++ '/' :: b) = s :: (ss ++ splitSlash b) := by
        rw [ih, hs]; rfl
      rw [List.cons_append, splitSlash_cons_of_ne hc hs2, splitSlash_cons_of_ne hc hs]
      rfl

theorem splitSlash_of_no_slash {s : Str} (h : '/' ∉ s) : splitSlash s = [s] := by
  induction s with
  | nil => rfl
  | cons c cs ih =>
    simp only [List.mem_cons, not_or] at h
    have hc : ¬ c = '/' := fun hc => h.1 hc.symm
    simp only [splitSlash, if_neg hc, ih h.2]

theorem joinSlash_cons_of_ne_nil (s : Str) {R : List Str} (h : R ≠ []) :
    joinSlash (s :: R) = s ++ '/' :: joinSlash R := by
  cases R with
  | nil => exact absurd rfl h
  | cons t ts => rfl

theorem joinSlash_append {A B : List Str} (hA : A ≠ []) (hB : B ≠ []) :
    joinSlash (A ++ B) = joinSlash A ++ '/' :: joinSlash B := by
  induction A with
  | nil => exact absurd rfl hA
  | cons s ss ih =>
    cases ss with
    | nil =>
      rw [List.singleton_append, joinSlash_cons_of_ne_nil s hB]
      rfl
    | cons t ts =>
      rw [List.cons_append, joinSlash_cons_of_ne_nil s (by simp),
        joinSlash_cons_of_ne_nil s (List.cons_ne_nil t ts), ih (List.cons_ne_nil t ts)]
      simp

theorem joinSlash_splitSlash (l : Str) : joinSlash (splitSlash l) = l := by
  induction l with
  | nil => rfl
  | cons c cs ih =>
    by_cases hc : c = '/'
    · subst hc
      rw [splitSlash_cons_slash, joinSlash_cons_of_ne_nil [] (splitSlash_ne_nil cs)]
      simp [ih]
    · obtain ⟨s, ss, hs⟩ := List.exists_cons_of_ne_nil (splitSlash_ne_nil cs)
      rw [splitSlash_cons_of_ne hc hs]
      cases ss with
      | nil =>
        have hcs : s = cs := by rw [← ih, hs]; rfl
        simp [joinSlash, hcs]
      | cons u us =>
        rw [joinSlash_cons_of_ne_nil (c :: s) (List.cons_ne_nil u us)]
        have hcs : s ++ '/' :: joinSlash (u :: us) = cs := by
          rw [← ih, hs, joinSlash_cons_of_ne_nil s (List.cons_ne_nil u us)]
        simp [← hcs]

theorem splitSlash_joinSlash {P : List Str} (hne : P ≠ []) (h : ∀ s ∈ P, '/' ∉ s) :
    splitSlash (joinSlash P) = P := by
  induction P with
  | nil => exact absurd rfl hne
  | cons s ss ih =>
    cases ss with
    | nil => simp [joinSlash, splitSlash_of_no_slash (h s (by simp))]
    | cons t ts =>
      rw [joinSlash_cons_of_ne_nil s (List.cons_ne_nil t ts), splitSlash_append,
        splitSlash_of_no_slash (h s (by simp)),
        ih (List.cons_ne_nil t ts) (fun x hx => h x (by simp [hx]))]
      rfl

theorem backslash_not_mem_joinSlash {P : List Str} (hP : ∀ s ∈ P, '\\' ∉ s) :
    '\\' ∉ joinSlash P := by
  induction P with
  | nil => simp [joinSlash]
  | cons s ss ih =>
    cases ss with
    | nil => exact hP s (by simp)
    | cons t ts =>
      rw [joinSlash_cons_of_ne_nil s (List.cons_ne_nil t ts)]
      intro h
      rcases List.mem_append.mp h with h1 | h2
      · exact hP s (by simp) h1
      · rcases List.mem_cons.mp h2 with h3 | h4
        · exact absurd h3 (by decide)
        · exact ih (fun x hx => hP x (by simp [hx])) h4

theorem lastIdxOf_of_not_mem {l : List Str} {a : Str} (h : a ∉ l) :
    lastIdxOf l a = none := by
  induction l with
  | nil => rfl
  | cons x xs ih =>
    simp only [List.mem_cons, not_or] at h
    simp only [lastIdxOf, ih h.2]
    rw [if_neg (fun hx => h.1 hx.symm)]

theorem lastIdxOf_append_cons {R : List Str} {a : Str} (A : List Str) (h : a ∉ R) :
    lastIdxOf (A ++ a :: R) a = some A.length := by
  induction A with
  | nil => simp [lastIdxOf, lastIdxOf_of_not_mem h]
  | cons x xs ih => simp [lastIdxOf, ih]

theorem get?_append_add (A B : List Str) (n : Nat) :
    (A ++ B).get? (A.length + n) = B.get? n := by
  induction A with
  | nil => simp
  | cons x xs ih =>
    rw [List.cons_append, List.length_cons,
      show xs.length + 1 + n = (xs.length + n) + 1 from by omega]
    exact ih

theorem drop_append_add (A B : List Str) (n : Nat) :
    (A ++ B).drop (A.length + n) = B.drop n := by
  induction A with
  | nil => simp
  | cons x xs ih =>
    rw [List.cons_append, List.length_cons,
      show xs.length + 1 + n = (xs.length + n) + 1 from by omega]
    exact ih

theorem drop_eq_cons_of_get? {l : List Str} {n : Nat} {x : Str}
    (h : l.get? n = some x) : l.drop n = x :: l.drop (n + 1) := by
  induction l generalizing n with
  | nil => simp [List.get?] at h
  | cons y ys ih =>
    cases n with
    | zero =>
      simp only [List.get?] at h
      cases h
      rfl
    | succ m => exact ih h

theorem findLastFrom_self {p : Nat → Bool} {n : Nat} (h : p n = true) :
    findLastFrom p n = some n := by
  cases n with
  | zero => simp [findLastFrom, h]
  | succ m => simp [findLastFrom, h]

theorem lastSubstrIdx_append_self (pre nd : Str) :
    lastSubstrIdx (pre ++ nd) nd = some pre.length := by
  have hlen : nd.length ≤ (pre ++ nd).length := by simp
  have hsub : ((pre ++ nd).drop pre.length).take nd.length = nd := by
    rw [List.drop_left]
    exact List.take_length nd
  unfold lastSubstrIdx
  rw [if_pos hlen, show (pre ++ nd).length - nd.length = pre.length from by simp]
  exact findLastFrom_self (by simp [hsub])

theorem lastSubstrIdx_of_longer {hay nd : Str} (h : hay.length < nd.length) :
    lastSubstrIdx hay nd = none := by
  unfold lastSubstrIdx
  rw [if_neg (by omega)]

theorem backslash_not_mem_mkDocPath {pre sd lang : Str} {P : List Str}
    (hpre : '\\' ∉ pre) (hsd : cleanSeg sd) (hlang : cleanSeg lang)
    (hP : ∀ s ∈ P, cleanSeg s) : '\\' ∉ mkDocPath pre sd lang P := by
  unfold mkDocPath
  intro h
  rcases List.mem_append.mp h with h1 | h2
  · exact hpre h1
  · rcases List.mem_cons.mp h2 with h3 | h4
    · exact absurd h3 (by decide)
    · rcases List.mem_append.mp h4 with h5 | h6
      · exact hsd.2 h5
      · rcases List.mem_cons.mp h6 with h7 | h8
        · exact absurd h7 (by decide)
        · rcases List.mem_append.mp h8 with h9 | h10
          · exact hlang.2 h9
          · rcases List.mem_cons.mp h10 with h11 | h12
            · exact absurd h11 (by decide)
            · exact backslash_not_mem_joinSlash (fun s hs => (hP s hs).2) h12

theorem splitSlash_mkDocPath {pre sd lang : Str} {P : List Str}
    (hsd : '/' ∉ sd) (hlang : '/' ∉ lang) (hP : ∀ s ∈ P, '/' ∉ s) (hPne : P ≠ []) :
    splitSlash (mkDocPath pre sd lang P) = splitSlash pre ++ sd :: lang :: P := by
  unfold mkDocPath
  rw [splitSlash_append, splitSlash_append, splitSlash_append,
    splitSlash_of_no_slash hsd, splitSlash_of_no_slash hlang,
    splitSlash_joinSlash hPne hP]
  simp

theorem parseDocInfo_mk (pre sd lang : Str) (P : List Str) (languages : List Str)
    (tri : Bool)
    (hpre : '\\' ∉ pre) (hsd : cleanSeg sd) (hlang : cleanSeg lang)
    (hP : ∀ s ∈ P, cleanSeg s) (hlmem : lang ∈ languages) (hPne : P ≠ [])
    (hlsd : lang ≠ sd) (hPsd : ∀ s ∈ P, s ≠ sd) :
    parseDocInfo (mkDocPath pre sd lang P) languages sd tri =
      some ⟨lang, joinSlash P, stripExtAndIndex (joinSlash P) tri, sd⟩ := by
  have hPempty : P.isEmpty = false := by
    cases P
    · exact absurd rfl hPne
    · rfl
  have hsplit : splitSlash (toPosix (mkDocPath pre sd lang P)) =
      splitSlash pre ++ sd :: lang :: P := by
    rw [toPosix_of_no_backslash (backslash_not_mem_mkDocPath hpre hsd hlang hP)]
    exact splitSlash_mkDocPath hsd.1 hlang.1 (fun s hs => (hP s hs).1) hPne
  have hlast : lastIdxOf (splitSlash pre ++ sd :: lang :: P) sd =
      some (splitSlash pre).length := by
    apply lastIdxOf_append_cons
    intro hmem
    rcases List.mem_cons.mp hmem with h | h
    · exact hlsd h.symm
    · exact hPsd sd h rfl
  have hget : (splitSlash pre ++ sd :: lang :: P).get? ((splitSlash pre).length + 1) =
      some lang := get?_append_add _ _ 1
  have hdrop : (splitSlash pre ++ sd :: lang :: P).drop ((splitSlash pre).length + 2) = P :=
    drop_append_add _ _ 2
  simp only [parseDocInfo, hsplit, hlast, hget, hdrop, hPempty]
  rw [if_pos hlmem]
  simp

theorem buildTargetFileUri_mk (pre sd lang tgt : Str) (P : List Str) (rnx : Str)
    (hpre : '\\' ∉ pre) (hsd : cleanSeg sd) (hlang : cleanSeg lang)
    (hP : ∀ s ∈ P, cleanSeg s) :
    buildTargetFileUri (mkDocPath pre sd lang P) tgt ⟨lang, joinSlash P, rnx, sd⟩ =
      some (mkDocPath pre sd tgt P) := by
  simp only [buildTargetFileUri,
    toPosix_of_no_backslash (backslash_not_mem_mkDocPath hpre hsd hlang hP)]
  have hform : mkDocPath pre sd lang P =
      pre ++ '/' :: (sd ++ '/' :: (lang ++ '/' :: joinSlash P)) := rfl
  rw [hform, lastSubstrIdx_append_self pre ('/' :: (sd ++ '/' :: (lang ++ '/' :: joinSlash P)))]
  simp [List.take_left, mkDocPath]

/-- C1 (amended): for a path `<pre>/<staticDir>/<lang>/<a>/<b>.md` with
`lang` configured, resolving with `parseDocInfo` and rebuilding the sibling
path for the same language with `buildTargetFileUri` returns the original
path unchanged — provided, as the counterexample forces, that none of the
`<lang>`, `<a>`, `<b>.md` segments equals the static-directory name. -/
theorem resolve_then_rebuild_same_language (pre sd lang a b : Str)
    (languages : List Str) (tri : Bool)
    (hpre : '\\' ∉ pre) (hsd : cleanSeg sd) (hlang : cleanSeg lang)
    (ha : cleanSeg a) (hb : cleanSeg b)
    (hlmem : lang ∈ languages) (hlsd : lang ≠ sd) (hasd : a ≠ sd)
    (hbsd : b ++ ".md".data ≠ sd) :
    openSiblingRoundTrip
        (pre ++ '/' :: (sd ++ '/' :: (lang ++ '/' :: (a ++ '/' :: (b ++ ".md".data)))))
        languages sd tri lang
      = some (pre ++ '/' :: (sd ++ '/' :: (lang ++ '/' :: (a ++ '/' :: (b ++ ".md".data))))) := by
  have hbmd : cleanSeg (b ++ ".md".data) := by
    constructor
    · intro h
      rcases List.mem_append.mp h with h | h
      · exact hb.1 h
      · revert h; decide
    · intro h
      rcases List.mem_append.mp h with h | h
      · exact hb.2 h
      · revert h; decide
  have hPc : ∀ s ∈ [a, b ++ ".md".data], cleanSeg s := by
    intro s hs
    rcases List.mem_cons.mp hs with h | h
    · subst h; exact ha
    · rcases List.mem_cons.mp h with h' | h'
      · subst h'; exact hbmd
      · cases h'
  have hPsd : ∀ s ∈ [a, b ++ ".md".data], s ≠ sd := by
    intro s hs
    rcases List.mem_cons.mp hs with h | h
    · subst h; exact hasd
    · rcases List.mem_cons.mp h with h' | h'
      · subst h'; exact hbsd
      · cases h'
  have hpath : pre ++ '/' :: (sd ++ '/' :: (lang ++ '/' :: (a ++ '/' :: (b ++ ".md".data))))
      = mkDocPath pre sd lang [a, b ++ ".md".data] := rfl
  rw [hpath]
  unfold openSiblingRoundTrip
  rw [parseDocInfo_mk pre sd lang [a, b ++ ".md".data] languages tri hpre hsd hlang hPc
    hlmem (by simp) hlsd hPsd]
  exact buildTargetFileUri_mk pre sd lang lang [a, b ++ ".md".data] _ hpre hsd hlang hPc

/-- C1 witness: the round trip at a concrete in-tree path. -/
theorem resolve_then_rebuild_same_language_witness :
    openSiblingRoundTrip "/ws/static/en/a/b.md".data ["en".data] "static".data true "en".data
      = some "/ws/static/en/a/b.md".data := by
  have hform : "/ws/static/en/a/b.md".data =
      "/ws".data ++ '/' :: ("static".data ++ '/' :: ("en".data ++ '/' ::
        ("a".data ++ '/' :: ("b".data ++ ".md".data)))) := by decide
  rw [hform]
  exact resolve_then_rebuild_same_language "/ws".data "static".data "en".data "a".data
    "b".data ["en".data] true (by decide) (by decide) (by decide) (by decide) (by decide)
    (by decide) (by decide) (by decide) (by decide)

/-- C1 counterexample: with `<a>` equal to the static-directory name the
path is of the claimed form and `en` is configured, yet resolution anchors
at the rightmost `static` segment, fails the language check, and the round
trip does not return the original path. -/
theorem resolve_then_rebuild_same_language_counterexample :
    openSiblingRoundTrip "/ws/static/en/static/b.md".data ["en".data] "static".data true
        "en".data
      ≠ some "/ws/static/en/static/b.md".data := by decide

/-- C2 (amended): building the sibling for `L2` from a DocInfo resolved in
`L1` and then building the sibling for `L1` from the result recovers the
original path, relative path preserved — provided, as the counterexample
forces, that neither language nor any relative-path segment equals the
static-directory name. -/
theorem cross_language_round_trip (pre sd L1 L2 : Str) (P : List Str)
    (languages : List Str) (tri : Bool)
    (hpre : '\\' ∉ pre) (hsd : cleanSeg sd) (h1 : cleanSeg L1) (h2 : cleanSeg L2)
    (hP : ∀ s ∈ P, cleanSeg s) (hPne : P ≠ []) (hPsd : ∀ s ∈ P, s ≠ sd)
    (hm1 : L1 ∈ languages) (hm2 : L2 ∈ languages) (h1sd : L1 ≠ sd) (h2sd : L2 ≠ sd) :
    (openSiblingRoundTrip (mkDocPath pre sd L1 P) languages sd tri L2).bind
        (fun q => openSiblingRoundTrip q languages sd tri L1)
      = some (mkDocPath pre sd L1 P) := by
  unfold openSiblingRoundTrip
  rw [parseDocInfo_mk pre sd L1 P languages tri hpre hsd h1 hP hm1 hPne h1sd hPsd]
  have hb1 : buildTargetFileUri (mkDocPath pre sd L1 P) L2
      ⟨L1, joinSlash P, stripExtAndIndex (joinSlash P) tri, sd⟩
      = some (mkDocPath pre sd L2 P) :=
    buildTargetFileUri_mk pre sd L1 L2 P _ hpre hsd h1 hP
  simp only [Option.some_bind, hb1]
  rw [parseDocInfo_mk pre sd L2 P languages tri hpre hsd h2 hP hm2 hPne h2sd hPsd]
  simp only [Option.some_bind]
  exact buildTargetFileUri_mk pre sd L2 L1 P _ hpre hsd h2 hP

/-- C2 witness: a concrete cross-language round trip en → ja → en. -/
theorem cross_language_round_trip_witness :
    (openSiblingRoundTrip (mkDocPath "/ws".data "static".data "en".data
        ["a".data, "b.md".data]) ["en".data, "ja".data] "static".data true "ja".data).bind
        (fun q => openSiblingRoundTrip q ["en".data, "ja".data] "static".data true "en".data)
      = some (mkDocPath "/ws".data "static".data "en".data ["a".data, "b.md".data]) :=
  cross_language_round_trip "/ws".data "static".data "en".data "ja".data
    ["a".data, "b.md".data] ["en".data, "ja".data] true (by decide) (by decide) (by decide)
    (by decide) (by decide) (by decide) (by decide) (by decide) (by decide) (by decide)
    (by decide)

/-- C2 counterexample: with the static-directory name `static` itself a
configured language and `L2 = "static"`, the intermediate sibling path
anchors wrongly on re-resolution and the round trip fails. -/
theorem cross_language_round_trip_counterexample :
    (openSiblingRoundTrip "/ws/static/en/a/b.md".data ["en".data, "static".data]
        "static".data true "static".data).bind
        (fun q => openSiblingRoundTrip q ["en".data, "static".data] "static".data true
          "en".data)
      ≠ some "/ws/static/en/a/b.md".data := by decide

theorem lastIdxOf_get? {l : List Str} {a : Str} {i : Nat}
    (h : lastIdxOf l a = some i) : l.get? i = some a := by
  induction l generalizing i with
  | nil => simp [lastIdxOf] at h
  | cons x xs ih =>
    simp only [lastIdxOf] at h
    cases hx : lastIdxOf xs a with
    | some j =>
      rw [hx] at h
      injection h with h1
      subst h1
      exact ih hx
    | none =>
      rw [hx] at h
      by_cases hxa : x = a
      · rw [if_pos hxa] at h
        injection h with h1
        subst h1
        simpa [List.get?] using hxa
      · rw [if_neg hxa] at h
        exact Option.noConfusion h

theorem eq_take_cons_drop {l : List Str} {n : Nat} {x : Str} (h : l.get? n = some x) :
    l = l.take n ++ x :: l.drop (n + 1) := by
  conv_lhs => rw [← List.take_append_drop n l]
  rw [drop_eq_cons_of_get? h]

theorem parseDocInfo_inv {p : Str} {languages : List Str} {sd : Str} {tri : Bool}
    {info : DocInfo} (h : parseDocInfo p languages sd tri = some info) :
    ∃ i, lastIdxOf (splitSlash (toPosix p)) sd = some i ∧
      (splitSlash (toPosix p)).get? (i + 1) = some info.lang ∧
      info.lang ∈ languages ∧
      (splitSlash (toPosix p)).drop (i + 2) ≠ [] ∧
      info.relPathWithExt = joinSlash ((splitSlash (toPosix p)).drop (i + 2)) ∧
      info.staticDir = sd := by
  simp only [parseDocInfo] at h
  split at h
  · exact absurd h (by simp)
  · rename_i i hl
    split at h
    · exact absurd h (by simp)
    · rename_i lang hg
      split at h
      · rename_i hm
        split at h
        · exact absurd h (by simp)
        · rename_i hne
          injection h with h1
          subst h1
          refine ⟨i, hl, hg, hm, ?_, rfl, rfl⟩
          intro hnil
          rw [hnil] at hne
          exact hne rfl
      · exact absurd h (by simp)

/-- C8: when `buildTargetFileUri` succeeds on a path whose DocInfo was
resolved from that same path, the result differs from the (posix-normalized)
input only in the language segment: static directory, extension and every
relative-path segment are preserved verbatim. -/
theorem sibling_differs_only_in_language {p : Str} {languages : List Str} {sd : Str}
    {tri : Bool} {info : DocInfo} {targetLang : Str} {result : Str}
    (hp : parseDocInfo p languages sd tri = some info)
    (hb : buildTargetFileUri p targetLang info = some result) :
    ∃ root,
      toPosix p =
        root ++ '/' :: (info.staticDir ++ '/' :: (info.lang ++ '/' :: info.relPathWithExt)) ∧
      result =
        root ++ '/' :: (info.staticDir ++ '/' :: (targetLang ++ '/' :: info.relPathWithExt)) := by
  obtain ⟨i, hl, hg, hm, hne, hrel, hsdi⟩ := parseDocInfo_inv hp
  have hjoin : toPosix p = joinSlash (splitSlash (toPosix p)) :=
    (joinSlash_splitSlash (toPosix p)).symm
  have hdecomp : splitSlash (toPosix p) =
      (splitSlash (toPosix p)).take i ++ sd :: info.lang ::
        (splitSlash (toPosix p)).drop (i + 2) := by
    conv_lhs => rw [eq_take_cons_drop (lastIdxOf_get? hl)]
    rw [drop_eq_cons_of_get? hg]
  cases hA : (splitSlash (toPosix p)).take i with
  | nil =>
    exfalso
    have hform : toPosix p =
        sd ++ '/' :: (info.lang ++ '/' :: joinSlash ((splitSlash (toPosix p)).drop (i + 2))) := by
      conv_lhs => rw [hjoin, hdecomp, hA]
      rw [List.nil_append, joinSlash_cons_of_ne_nil sd (List.cons_ne_nil _ _),
        joinSlash_cons_of_ne_nil info.lang hne]
    have hlen : (toPosix p).length <
        ('/' :: (sd ++ '/' :: (info.lang ++ '/' :: info.relPathWithExt))).length := by
      rw [hform, hrel]
      simp
    rw [buildTargetFileUri.eq_1, hsdi, lastSubstrIdx_of_longer hlen] at hb
    exact Option.noConfusion hb
  | cons a as =>
    have hform : toPosix p =
        joinSlash (a :: as) ++ '/' ::
          (info.staticDir ++ '/' :: (info.lang ++ '/' :: info.relPathWithExt)) := by
      conv_lhs => rw [hjoin, hdecomp, hA]
      rw [joinSlash_append (List.cons_ne_nil a as) (List.cons_ne_nil _ _),
        joinSlash_cons_of_ne_nil sd (List.cons_ne_nil _ _),
        joinSlash_cons_of_ne_nil info.lang hne, hrel, hsdi]
    refine ⟨joinSlash (a :: as), hform, ?_⟩
    rw [buildTargetFileUri.eq_1, hform, lastSubstrIdx_append_self] at hb
    have hb2 : some ((joinSlash (a :: as) ++ '/' ::
          (info.staticDir ++ '/' :: (info.lang ++ '/' :: info.relPathWithExt))).take
            (joinSlash (a :: as)).length ++
        '/' :: (info.staticDir ++ '/' :: (targetLang ++ '/' :: info.relPathWithExt)))
        = some result := hb
    rw [List.take_left] at hb2
    injection hb2 with hb3
    exact hb3.symm

/-- C8 witness: the frame property at a concrete path and target language. -/
theorem sibling_differs_only_in_language_witness :
    ∃ root,
      toPosix "/ws/static/en/a/b.md".data =
        root ++ '/' :: ("static".data ++ '/' :: ("en".data ++ '/' :: "a/b.md".data)) ∧
      "/ws/static/ja/a/b.md".data =
        root ++ '/' :: ("static".data ++ '/' :: ("ja".data ++ '/' :: "a/b.md".data)) :=
  @sibling_differs_only_in_language "/ws/static/en/a/b.md".data
    ["en".data, "ja".data] "static".data true
    ⟨"en".data, "a/b.md".data, "a/b".data, "static".data⟩
    "ja".data "/ws/static/ja/a/b.md".data (by decide) (by decide)

/-- C9: a resolved DocInfo's `lang` is always a member of the configured
language list, and when the segment after the last static-directory
occurrence is missing from that list `parseDocInfo` yields `none` — never a
guessed default. -/
theorem parse_lang_member_or_none (p : Str) (languages : List Str) (sd : Str)
    (tri : Bool) :
    (∀ info, parseDocInfo p languages sd tri = some info → info.lang ∈ languages) ∧
    (∀ i lang, lastIdxOf (splitSlash (toPosix p)) sd = some i →
      (splitSlash (toPosix p)).get? (i + 1) = some lang → lang ∉ languages →
      parseDocInfo p languages sd tri = none) := by
  constructor
  · intro info h
    obtain ⟨i, _, _, hm, _, _, _⟩ := parseDocInfo_inv h
    exact hm
  · intro i lang hl hg hm
    simp only [parseDocInfo, hl, hg, if_neg hm]

/-- C9 witness: a concrete resolvable path whose language is in the list,
and a concrete path whose candidate language `fr` is not configured. -/
theorem parse_lang_member_or_none_witness :
    (parseDocInfo "/ws/static/en/a.md".data ["en".data] "static".data true =
      some ⟨"en".data, "a.md".data, "a".data, "static".data⟩) ∧
    "en".data ∈ ["en".data] ∧
    parseDocInfo "/ws/static/fr/a.md".data ["en".data] "static".data true = none :=
  ⟨by decide,
   (parse_lang_member_or_none "/ws/static/en/a.md".data ["en".data] "static".data true).1
     ⟨"en".data, "a.md".data, "a".data, "static".data⟩ (by decide),
   (parse_lang_member_or_none "/ws/static/fr/a.md".data ["en".data] "static".data true).2
     2 "fr".data (by decide) (by decide) (by decide)⟩

theorem takeWhile_append_stop {p : Char → Bool} {l r : Str} {a : Char}
    (hl : ∀ c ∈ l, p c = true) (ha : p a = false) :
    (l ++ a :: r).takeWhile p = l := by
  induction l with
  | nil => simp [List.takeWhile_cons, ha]
  | cons x xs ih =>
    rw [List.cons_append, List.takeWhile_cons, hl x (by simp)]
    simp [ih (fun c hc => hl c (by simp [hc]))]

theorem take_append_add {α : Type} (A B : List α) (n : Nat) :
    (A ++ B).take (A.length + n) = A ++ B.take n := by
  induction A with
  | nil => simp
  | cons x xs ih =>
    rw [List.cons_append, List.length_cons,
      show xs.length + 1 + n = (xs.length + n) + 1 from by omega]
    exact congrArg (List.cons x) ih

theorem dropTrailingSlashes_append_seg {x y : Str} (hy : y ≠ []) (hys : '/' ∉ y) :
    dropTrailingSlashes (x ++ '/' :: y) = x ++ '/' :: y := by
  obtain ⟨c, cs, hc⟩ :=
    List.exists_cons_of_ne_nil (fun h => hy (List.reverse_eq_nil_iff.mp h))
  have hcy : c ∈ y := by
    have hmem : c ∈ y.reverse := by rw [hc]; simp
    simpa using hmem
  have hcne : ¬ c = '/' := fun h => hys (h ▸ hcy)
  have hrev : (x ++ '/' :: y).reverse = c :: (cs ++ '/' :: x.reverse) := by
    rw [List.reverse_append, List.reverse_cons, hc]
    simp
  unfold dropTrailingSlashes
  rw [hrev, List.dropWhile_cons, if_neg (by simp [hcne]), ← hrev, List.reverse_reverse]

theorem basenamePosix_append_seg {x y : Str} (hy : y ≠ []) (hys : '/' ∉ y) :
    basenamePosix (x ++ '/' :: y) = y := by
  unfold basenamePosix
  rw [dropTrailingSlashes_append_seg hy hys]
  have hrev : (x ++ '/' :: y).reverse = y.reverse ++ '/' :: x.reverse := by
    rw [List.reverse_append, List.reverse_cons]
    simp
  rw [hrev, takeWhile_append_stop (fun c hc => by
      simp only [decide_eq_true_eq]
      exact fun h => hys (h ▸ (by simpa using hc))
    ) (by simp), List.reverse_reverse]

theorem extname_append_seg {x y : Str} (hy : y ≠ []) (hys : '/' ∉ y) :
    extname (x ++ '/' :: y) = extnameOfBase y := by
  unfold extname
  rw [basenamePosix_append_seg hy hys]

theorem endsWithChars_append (l suf : Str) : endsWithChars (l ++ suf) suf = true := by
  unfold endsWithChars
  simp [List.length_append, Nat.add_sub_cancel, List.drop_left]

theorem stripExtAndIndex_readme_enabled (J : Str) :
    stripExtAndIndex (J ++ '/' :: "README.md".data) true = J := by
  have hext : extname (J ++ '/' :: "README.md".data) = ".md".data :=
    extname_append_seg (by decide) (by decide)
  have h10 : ('/' :: "README.md".data).length = 10 := by decide
  have h3 : (".md".data).length = 3 := by decide
  have h7 : ('/' :: "README.md".data).take 7 = "/README".data := by decide
  have h7b : ("/README".data).length = 7 := by decide
  have hlen : (J ++ '/' :: "README.md".data).length - (".md".data).length
      = J.length + 7 := by
    rw [List.length_append, h10, h3]
    omega
  simp only [stripExtAndIndex]
  rw [hext, hlen, take_append_add, h7, if_pos ⟨trivial, endsWithChars_append _ _⟩,
    List.length_append, h7b, Nat.add_sub_cancel, List.take_left]

theorem stripExtAndIndex_readme_disabled (J : Str) :
    stripExtAndIndex (J ++ '/' :: "README.md".data) false = J ++ "/README".data := by
  have hext : extname (J ++ '/' :: "README.md".data) = ".md".data :=
    extname_append_seg (by decide) (by decide)
  have h10 : ('/' :: "README.md".data).length = 10 := by decide
  have h3 : (".md".data).length = 3 := by decide
  have h7 : ('/' :: "README.md".data).take 7 = "/README".data := by decide
  have hlen : (J ++ '/' :: "README.md".data).length - (".md".data).length
      = J.length + 7 := by
    rw [List.length_append, h10, h3]
    omega
  simp only [stripExtAndIndex]
  rw [hext, hlen, take_append_add, h7, if_neg (fun hc => absurd hc.1 (by decide))]

/-- C4 (amended): for resolvable paths whose file segment is `README.md`
and which lie at least one directory below `<staticDir>/<lang>/`, enabling
README-as-index makes `parseDocInfo` drop the trailing `README` segment
(yielding the containing directory), and disabling it keeps the segment; as
the counterexample forces, a `README.md` sitting directly under
`<staticDir>/<lang>/` keeps its `README` segment even with the option
enabled, because only a `"/README"` suffix is stripped. -/
theorem readme_segment_normalization (pre sd lang : Str) (P : List Str)
    (languages : List Str)
    (hpre : '\\' ∉ pre) (hsd : cleanSeg sd) (hlang : cleanSeg lang)
    (hP : ∀ s ∈ P, cleanSeg s) (hlmem : lang ∈ languages) (hPne : P ≠ [])
    (hlsd : lang ≠ sd) (hPsd : ∀ s ∈ P, s ≠ sd) (hRsd : "README.md".data ≠ sd) :
    (parseDocInfo (mkDocPath pre sd lang (P ++ ["README.md".data])) languages sd
        true).map DocInfo.relPathNoExt = some (joinSlash P) ∧
    (parseDocInfo (mkDocPath pre sd lang (P ++ ["README.md".data])) languages sd
        false).map DocInfo.relPathNoExt = some (joinSlash P ++ "/README".data) := by
  have hP' : ∀ s ∈ P ++ ["README.md".data], cleanSeg s := by
    intro s hs
    rcases List.mem_append.mp hs with h | h
    · exact hP s h
    · rcases List.mem_cons.mp h with h' | h'
      · subst h'
        constructor <;> decide
      · cases h'
  have hPsd' : ∀ s ∈ P ++ ["README.md".data], s ≠ sd := by
    intro s hs
    rcases List.mem_append.mp hs with h | h
    · exact hPsd s h
    · rcases List.mem_cons.mp h with h' | h'
      · subst h'
        exact hRsd
      · cases h'
  have hJ : joinSlash (P ++ ["README.md".data]) = joinSlash P ++ '/' :: "README.md".data :=
    joinSlash_append hPne (by simp)
  constructor
  · rw [parseDocInfo_mk pre sd lang (P ++ ["README.md".data]) languages true hpre hsd
      hlang hP' hlmem (by simp) hlsd hPsd']
    simp only [Option.map_some']
    rw [hJ, stripExtAndIndex_readme_enabled]
  · rw [parseDocInfo_mk pre sd lang (P ++ ["README.md".data]) languages false hpre hsd
      hlang hP' hlmem (by simp) hlsd hPsd']
    simp only [Option.map_some']
    rw [hJ, stripExtAndIndex_readme_disabled]

/-- C4 witness: the spec's own example `.../static/en/guide/README.md`. -/
theorem readme_segment_normalization_witness :
    (parseDocInfo (mkDocPath "/ws".data "static".data "en".data
        (["guide".data] ++ ["README.md".data])) ["en".data] "static".data true).map
        DocInfo.relPathNoExt = some (joinSlash ["guide".data]) ∧
    (parseDocInfo (mkDocPath "/ws".data "static".data "en".data
        (["guide".data] ++ ["README.md".data])) ["en".data] "static".data false).map
        DocInfo.relPathNoExt = some (joinSlash ["guide".data] ++ "/README".data) :=
  readme_segment_normalization "/ws".data "static".data "en".data ["guide".data]
    ["en".data] (by decide) (by decide) (by decide) (by decide) (by decide) (by decide)
    (by decide) (by decide) (by decide)

/-- C4 counterexample: `README.md` directly under `<staticDir>/<lang>/`,
README-as-index enabled, keeps `relPathNoExt = "README"` instead of
yielding the containing directory (the empty relative path), because
`"README"` does not end in `"/README"`. -/
theorem readme_segment_normalization_counterexample :
    (parseDocInfo "/ws/static/en/README.md".data ["en".data] "static".data true).map
        DocInfo.relPathNoExt = some "README".data ∧
    "README".data ≠ ([] : Str) := by decide

theorem dropWhile_append_stop {p : Char → Bool} {l r : Str} {a : Char}
    (hl : ∀ c ∈ l, p c = true) (ha : p a = false) :
    (l ++ a :: r).dropWhile p = a :: r := by
  induction l with
  | nil => simp [List.dropWhile_cons, ha]
  | cons x xs ih =>
    rw [List.cons_append, List.dropWhile_cons, hl x (by simp)]
    simp [ih (fun c hc => hl c (by simp [hc]))]

theorem takeWhile_eq_self_of_all {p : Char → Bool} {l : Str}
    (h : ∀ c ∈ l, p c = true) : l.takeWhile p = l := by
  induction l with
  | nil => rfl
  | cons x xs ih =>
    rw [List.takeWhile_cons, h x (by simp)]
    simp [ih (fun c hc => h c (by simp [hc]))]

theorem mem_joinSlash {c : Char} {P : List Str} (h : c ∈ joinSlash P) :
    c = '/' ∨ ∃ s ∈ P, c ∈ s := by
  induction P with
  | nil => simp [joinSlash] at h
  | cons s ss ih =>
    cases ss with
    | nil => exact Or.inr ⟨s, by simp, h⟩
    | cons t ts =>
      rw [joinSlash_cons_of_ne_nil s (List.cons_ne_nil t ts)] at h
      rcases List.mem_append.mp h with h1 | h2
      · exact Or.inr ⟨s, by simp, h1⟩
      · rcases List.mem_cons.mp h2 with h3 | h4
        · exact Or.inl h3
        · rcases ih h4 with h5 | ⟨u, hu, hcu⟩
          · exact Or.inl h5
          · exact Or.inr ⟨u, by simp [hu], hcu⟩

theorem splitScheme_append {scheme : Str} (r : Str) (hs : ':' ∉ scheme) :
    splitScheme (scheme ++ ':' :: '/' :: '/' :: r) = some (scheme, r) := by
  induction scheme with
  | nil =>
    simp only [List.nil_append, splitScheme]
    rw [if_pos ⟨trivial, rfl⟩]
    rfl
  | cons c cs ih =>
    simp only [List.mem_cons, not_or] at hs
    rw [List.cons_append, splitScheme.eq_2,
      if_neg (fun hc => hs.1 hc.1.symm), ih hs.2]
    rfl

theorem dropWhile_slash_replicate (k : Nat) (y : Str) :
    (List.replicate k '/' ++ y).dropWhile (fun c => c = '/') = y.dropWhile (fun c => c = '/') := by
  induction k with
  | zero => rfl
  | succ m ih =>
    rw [List.replicate_succ, List.cons_append, List.dropWhile_cons, if_pos (by simp), ih]

theorem dropTrailingSlashes_append_replicate (x : Str) (k : Nat) :
    dropTrailingSlashes (x ++ List.replicate k '/') = dropTrailingSlashes x := by
  unfold dropTrailingSlashes
  rw [List.reverse_append, List.reverse_replicate, dropWhile_slash_replicate]

/-- C3: the URL parser inverts the URL builder. For a base of the form
`scheme://host` (optionally with trailing slashes), a configured slash-free
language code, and an index-normalized relative path (non-empty, slash-
separated, non-empty segments, no query/fragment characters), parsing the
built URL recovers exactly the language and relative path; concretely the
spec's example round-trips. The `new URL` component split is the
`urlPathname` model. -/
theorem url_build_parse_round_trip (base scheme host lang rel : Str)
    (segs : List Str) (k : Nat) (languages : List Str)
    (hbase : base = scheme ++ ':' :: '/' :: '/' :: (host ++ List.replicate k '/'))
    (hs1 : scheme ≠ []) (hs2 : ':' ∉ scheme)
    (hh1 : host ≠ []) (hh2 : '/' ∉ host)
    (hl1 : lang ≠ []) (hl2 : '/' ∉ lang) (hl3 : '?' ∉ lang) (hl4 : '#' ∉ lang)
    (hrel : rel = joinSlash segs) (hsegs : segs ≠ [])
    (hseg : ∀ s ∈ segs, s ≠ [] ∧ '/' ∉ s ∧ '?' ∉ s ∧ '#' ∉ s)
    (hmem : lang ∈ languages) :
    buildUrl base lang rel =
      scheme ++ ':' :: '/' :: '/' :: (host ++ '/' :: (lang ++ '/' :: rel)) ∧
    parseUrlToLangAndRel urlPathname (buildUrl base lang rel) languages =
      some (lang, rel) ∧
    buildUrl "https://docs.m5stack.com/".data "zh_CN".data "a/b".data =
      "https://docs.m5stack.com/zh_CN/a/b".data ∧
    parseUrlToLangAndRel urlPathname "https://docs.m5stack.com/zh_CN/a/b".data
      ["zh_CN".data, "en".data, "ja".data] = some ("zh_CN".data, "a/b".data) := by
  have e1 : dropTrailingSlashes base = scheme ++ ':' :: '/' :: '/' :: host := by
    rw [hbase,
      show scheme ++ ':' :: '/' :: '/' :: (host ++ List.replicate k '/')
        = (scheme ++ ':' :: '/' :: '/' :: host) ++ List.replicate k '/' from by simp,
      dropTrailingSlashes_append_replicate,
      show scheme ++ ':' :: '/' :: '/' :: host
        = (scheme ++ [':', '/']) ++ '/' :: host from by simp,
      dropTrailingSlashes_append_seg hh1 hh2]
  have e2 : dropLeadingSlashes rel = rel := by
    obtain ⟨s0, rest, hsr⟩ := List.exists_cons_of_ne_nil hsegs
    obtain ⟨hs0ne, hs0sl, -, -⟩ := hseg s0 (by rw [hsr]; simp)
    obtain ⟨c0, s0', hc0⟩ := List.exists_cons_of_ne_nil hs0ne
    have hc0' : ¬ c0 = '/' := fun h => hs0sl (h ▸ (by rw [hc0]; simp))
    rw [hrel, hsr, hc0]
    cases rest with
    | nil =>
      show dropLeadingSlashes (c0 :: s0') = c0 :: s0'
      unfold dropLeadingSlashes
      rw [List.dropWhile_cons, if_neg (by simp [hc0'])]
    | cons t ts =>
      rw [joinSlash_cons_of_ne_nil _ (List.cons_ne_nil t ts)]
      show dropLeadingSlashes (c0 :: (s0' ++ '/' :: joinSlash (t :: ts))) = _
      unfold dropLeadingSlashes
      rw [List.dropWhile_cons, if_neg (by simp [hc0'])]
      simp
  have e3 : buildUrl base lang rel =
      scheme ++ ':' :: '/' :: '/' :: (host ++ '/' :: (lang ++ '/' :: rel)) := by
    simp only [buildUrl, e1, e2]
    simp
  refine ⟨e3, ?_, by decide, by decide⟩
  have e4 : splitScheme (buildUrl base lang rel) =
      some (scheme, host ++ '/' :: (lang ++ '/' :: rel)) := by
    rw [e3]
    exact splitScheme_append _ hs2
  have hhostB : ∀ c ∈ host, (c != '/') = true := by
    intro c hc
    simp only [bne_iff_ne, ne_eq, decide_eq_true_eq]
    exact fun h => hh2 (h ▸ hc)
  have e5 : urlPathname (buildUrl base lang rel) = some ('/' :: (lang ++ '/' :: rel)) := by
    simp only [urlPathname, e4]
    rw [if_neg hs1, takeWhile_append_stop hhostB (by decide)]
    rw [if_neg hh1, dropWhile_append_stop hhostB (by decide)]
    rw [takeWhile_eq_self_of_all ?hall]
    case hall =>
      intro c hc
      rcases List.mem_cons.mp hc with h | h
      · subst h; decide
      · rcases List.mem_append.mp h with h1 | h1
        · simp only [Bool.and_eq_true, bne_iff_ne, ne_eq, decide_eq_true_eq]
          exact ⟨fun hq => hl3 (hq ▸ h1), fun hq => hl4 (hq ▸ h1)⟩
        · rcases List.mem_cons.mp h1 with h2 | h2
          · subst h2; decide
          · rw [hrel] at h2
            rcases mem_joinSlash h2 with h3 | ⟨u, hu, hcu⟩
            · subst h3; decide
            · obtain ⟨-, -, hq, hh⟩ := hseg u hu
              simp only [Bool.and_eq_true, bne_iff_ne, ne_eq, decide_eq_true_eq]
              exact ⟨fun he => hq (he ▸ hcu), fun he => hh (he ▸ hcu)⟩
    rw [if_neg (List.cons_ne_nil _ _)]
  have e6 : splitSlash ('/' :: (lang ++ '/' :: rel)) = [] :: lang :: segs := by
    rw [splitSlash_cons_slash, hrel, splitSlash_append, splitSlash_of_no_slash hl2,
      splitSlash_joinSlash hsegs (fun s hs => (hseg s hs).2.1)]
    rfl
  have e7 : urlSegs ('/' :: (lang ++ '/' :: rel)) = lang :: segs := by
    unfold urlSegs
    rw [e6, List.filter_cons_of_neg (by simp), List.filter_cons_of_pos ?hlangB,
      List.filter_eq_self.mpr ?hsegB]
    case hlangB =>
      cases hl : lang with
      | nil => exact absurd hl hl1
      | cons c cs => simp
    case hsegB =>
      intro s hs
      obtain ⟨hne, -, -, -⟩ := hseg s hs
      cases hsx : s with
      | nil => exact absurd hsx hne
      | cons c cs => simp
  have hlen2 : ¬ ((lang :: segs).length < 2) := by
    obtain ⟨s0, rest, hsr⟩ := List.exists_cons_of_ne_nil hsegs
    rw [hsr]
    simp only [List.length_cons]
    omega
  simp only [parseUrlToLangAndRel, e5, e7]
  rw [if_neg hlen2]
  simp only [List.headD_cons, List.tail_cons]
  rw [if_pos hmem]
  show some (lang, joinSlash segs) = some (lang, rel)
  rw [hrel]

/-- C3 witness: the spec's concrete URL round-trips through build and parse. -/
theorem url_build_parse_round_trip_witness :
    parseUrlToLangAndRel urlPathname
      (buildUrl "https://docs.m5stack.com/".data "zh_CN".data "a/b".data)
      ["zh_CN".data, "en".data, "ja".data] = some ("zh_CN".data, "a/b".data) :=
  (url_build_parse_round_trip "https://docs.m5stack.com/".data "https".data
    "docs.m5stack.com".data "zh_CN".data "a/b".data ["a".data, "b".data] 1
    ["zh_CN".data, "en".data, "ja".data] (by decide) (by decide) (by decide) (by decide)
    (by decide) (by decide) (by decide) (by decide) (by decide) (by decide) (by decide)
    (by decide) (by decide)).2.1

/-- C6: for any component oracle standing for the WHATWG `URL` constructor
(`none` exactly on invalid URL strings), `parseUrlToLangAndRel` fails
precisely when the URL is invalid, or its pathname has fewer than two
non-empty segments, or the first segment is not a configured language; on
success it returns the first segment and the remaining segments joined by
`'/'`. -/
theorem parseUrl_failure_characterization (up : Str → Option Str) (urlStr : Str)
    (languages : List Str) :
    (parseUrlToLangAndRel up urlStr languages = none ↔
      up urlStr = none ∨ ∃ pn, up urlStr = some pn ∧
        ((urlSegs pn).length < 2 ∨ (urlSegs pn).headD [] ∉ languages)) ∧
    (∀ lang rel, parseUrlToLangAndRel up urlStr languages = some (lang, rel) →
      ∃ pn, up urlStr = some pn ∧ 2 ≤ (urlSegs pn).length ∧
        lang = (urlSegs pn).headD [] ∧ lang ∈ languages ∧
        rel = joinSlash (urlSegs pn).tail) := by
  cases hu : up urlStr with
  | none =>
    constructor
    · simp [parseUrlToLangAndRel, hu]
    · intro lang rel h
      simp [parseUrlToLangAndRel, hu] at h
  | some pn =>
    have hval : parseUrlToLangAndRel up urlStr languages =
        if (urlSegs pn).length < 2 then none
        else if (urlSegs pn).headD [] ∈ languages then
          some ((urlSegs pn).headD [], joinSlash (urlSegs pn).tail)
        else none := by
      simp only [parseUrlToLangAndRel, hu]
    by_cases hlen : (urlSegs pn).length < 2
    · rw [hval, if_pos hlen]
      refine ⟨⟨fun _ => Or.inr ⟨pn, rfl, Or.inl hlen⟩, fun _ => rfl⟩, ?_⟩
      intro lang rel h
      exact absurd h (by simp)
    · by_cases hmem : (urlSegs pn).headD [] ∈ languages
      · rw [hval, if_neg hlen, if_pos hmem]
        constructor
        · constructor
          · intro h
            exact absurd h (by simp)
          · intro h
            rcases h with h | ⟨pn', hpn', h⟩
            · exact Option.noConfusion h
            · injection hpn' with hpn'
              subst hpn'
              rcases h with h | h
              · exact absurd h hlen
              · exact absurd hmem h
        · intro lang rel h
          injection h with h1
          rw [Prod.mk.injEq] at h1
          obtain ⟨h2, h3⟩ := h1
          exact ⟨pn, rfl, by omega, h2.symm, h2 ▸ hmem, h3.symm⟩
      · rw [hval, if_neg hlen, if_neg hmem]
        refine ⟨⟨fun _ => Or.inr ⟨pn, rfl, Or.inr hmem⟩, fun _ => rfl⟩, ?_⟩
        intro lang rel h
        exact absurd h (by simp)

/-- C6 witness: the spec's example — a URL with a single path segment is
rejected — derived from the failure characterization, plus a concrete
success. -/
theorem parseUrl_failure_characterization_witness :
    parseUrlToLangAndRel urlPathname "https://docs.m5stack.com/zh_CN".data
      ["zh_CN".data] = none :=
  (parseUrl_failure_characterization urlPathname "https://docs.m5stack.com/zh_CN".data
    ["zh_CN".data]).1.mpr (Or.inr ⟨"/zh_CN".data, by decide, Or.inl (by decide)⟩)

theorem getLanGo_of_no192 {addrs : List IfAddr} (acc : List Str)
    (h : ∀ a ∈ addrs, isLanCandidate a = true → startsWith192 a.address = false) :
    getLanGo addrs acc =
      (acc ++ (addrs.filter isLanCandidate).map IfAddr.address).head? := by
  induction addrs generalizing acc with
  | nil => simp [getLanGo]
  | cons a rest ih =>
    by_cases hc : isLanCandidate a = true
    · have h192 : startsWith192 a.address = false := h a (by simp) hc
      simp only [getLanGo]
      rw [if_pos hc, if_neg (by simp [h192]),
        ih _ (fun b hb => h b (by simp [hb])), List.filter_cons_of_pos hc]
      simp
    · simp only [getLanGo]
      rw [if_neg hc, ih _ (fun b hb => h b (by simp [hb])),
        List.filter_cons_of_neg hc]

theorem getLanGo_with192 {addrs : List IfAddr} (acc : List Str)
    (h : ∃ a ∈ addrs, isLanCandidate a = true ∧ startsWith192 a.address = true) :
    ∃ ip, getLanGo addrs acc = some ip ∧ startsWith192 ip = true ∧
      ∃ a ∈ addrs, isLanCandidate a = true ∧ a.address = ip := by
  induction addrs generalizing acc with
  | nil => simp at h
  | cons a rest ih =>
    by_cases hc : isLanCandidate a = true
    · by_cases h9 : startsWith192 a.address = true
      · refine ⟨a.address, ?_, h9, a, by simp, hc, rfl⟩
        simp only [getLanGo]
        rw [if_pos hc, if_pos h9]
      · have hrest : ∃ b ∈ rest, isLanCandidate b = true ∧
            startsWith192 b.address = true := by
          rcases h with ⟨b, hb, hbc, hb9⟩
          rcases List.mem_cons.mp hb with hba | hbr
          · subst hba
            exact absurd hb9 h9
          · exact ⟨b, hbr, hbc, hb9⟩
        obtain ⟨ip, hgo, hip9, c, hcr, hcc, hca⟩ := ih (acc ++ [a.address]) hrest
        refine ⟨ip, ?_, hip9, c, by simp [hcr], hcc, hca⟩
        simp only [getLanGo]
        rw [if_pos hc, if_neg (by simp [Bool.not_eq_true] at h9 ⊢; exact h9), hgo]
    · have hrest : ∃ b ∈ rest, isLanCandidate b = true ∧
          startsWith192 b.address = true := by
        rcases h with ⟨b, hb, hbc, hb9⟩
        rcases List.mem_cons.mp hb with hba | hbr
        · subst hba
          exact absurd hbc hc
        · exact ⟨b, hbr, hbc, hb9⟩
      obtain ⟨ip, hgo, hip9, c, hcr, hcc, hca⟩ := ih acc hrest
      refine ⟨ip, ?_, hip9, c, by simp [hcr], hcc, hca⟩
      simp only [getLanGo]
      rw [if_neg hc, hgo]

/-- C5 (amended): the LAN resolver returns a `192.168.*` non-internal IPv4
address when one exists, otherwise the first other non-internal IPv4
address, otherwise none; `patchBaseHost` substitutes the resolved address
as the host of a loopback base, preserving protocol, port and path; when
no address exists the host is left unchanged but — as the counterexample
forces — the base is re-serialized with trailing slashes stripped rather
than returned verbatim. -/
theorem lan_selection_and_patch (addrs : List IfAddr) :
    ((∃ a ∈ addrs, isLanCandidate a = true ∧ startsWith192 a.address = true) →
      ∃ ip, getLanIPv4Prefer192 addrs = some ip ∧ startsWith192 ip = true ∧
        ∃ a ∈ addrs, isLanCandidate a = true ∧ a.address = ip) ∧
    ((∀ a ∈ addrs, isLanCandidate a = true → startsWith192 a.address = false) →
      getLanIPv4Prefer192 addrs =
        ((addrs.filter isLanCandidate).map IfAddr.address).head?) ∧
    (∀ base u ip, parseHttpBase base = some u →
      (u.hostname = "127.0.0.1".data ∨ u.hostname = "localhost".data) →
      patchBaseHost base (some ip) =
        dropTrailingSlashes (urlToString ⟨u.protocol, ip, u.port, u.path⟩)) ∧
    (∀ base u, parseHttpBase base = some u →
      patchBaseHost base none = dropTrailingSlashes (urlToString u)) ∧
    patchBaseHost "http://127.0.0.1:3000".data (some "192.168.1.23".data) =
      "http://192.168.1.23:3000".data ∧
    patchBaseHost "http://127.0.0.1:3000".data (some "10.0.0.5".data) =
      "http://10.0.0.5:3000".data := by
  refine ⟨fun h => getLanGo_with192 [] h, fun h => getLanGo_of_no192 [] h, ?_, ?_,
    by decide, by decide⟩
  · intro base u ip hparse hloop
    simp only [patchBaseHost, hparse]
    rw [if_pos hloop]
  · intro base u hparse
    simp only [patchBaseHost, hparse]

/-- C5 witness: a lone `192.168.1.23` interface is selected, and the
loopback default base with no available address keeps its host. -/
theorem lan_selection_and_patch_witness :
    (∃ ip, getLanIPv4Prefer192
        [⟨"IPv4".data, false, "192.168.1.23".data⟩] = some ip ∧
      startsWith192 ip = true ∧
      ∃ a ∈ [(⟨"IPv4".data, false, "192.168.1.23".data⟩ : IfAddr)],
        isLanCandidate a = true ∧ a.address = ip) ∧
    patchBaseHost "http://127.0.0.1:3000".data none = "http://127.0.0.1:3000".data :=
  ⟨(lan_selection_and_patch [⟨"IPv4".data, false, "192.168.1.23".data⟩]).1 (by decide),
   by decide⟩

/-- C5 counterexample: with no LAN address available the code does not
return the base verbatim — a trailing slash is stripped by the
re-serialization. -/
theorem lan_selection_and_patch_counterexample :
    patchBaseHost "http://127.0.0.1:3000/".data none ≠
      "http://127.0.0.1:3000/".data := by decide

/-- C10: a base string the URL constructor rejects (modelled:
`parseHttpBase` returns `none`) is returned by `patchBaseHost` verbatim;
the function is total, so nothing escapes the `catch`. -/
theorem patchBaseHost_invalid_base (base : Str) (lan : Option Str)
    (h : parseHttpBase base = none) : patchBaseHost base lan = base := by
  simp only [patchBaseHost, h]

/-- C10 witness: a string with no scheme separator is unparseable and comes
back verbatim. -/
theorem patchBaseHost_invalid_base_witness :
    parseHttpBase "not-a-url".data = none ∧
    patchBaseHost "not-a-url".data (some "10.0.0.5".data) = "not-a-url".data :=
  ⟨by decide, patchBaseHost_invalid_base "not-a-url".data (some "10.0.0.5".data)
    (by decide)⟩

/-- C7: the workspace picker selects, in order, an exact preferred-name
match, then the first folder whose `<folder>/<staticDir>/<firstLanguage>`
probe exists, then the first folder; it returns `none` exactly when no
folders are open, and a name match wins regardless of the probe. -/
theorem pickDocsWorkspace_selection (ex : Str → Bool) (sd : Str)
    (languages : List Str) (pn : Str) (folders : List WsFolder)
    (hl : languages ≠ []) :
    (pickDocsWorkspace ex sd languages pn folders = none ↔ folders = []) ∧
    (pn ≠ [] → (∃ f ∈ folders, f.name = pn) →
      pickDocsWorkspace ex sd languages pn folders =
        folders.find? (fun f => decide (f.name = pn))) ∧
    ((pn = [] ∨ ∀ f ∈ folders, f.name ≠ pn) →
      (∃ f ∈ folders, ex (probePath f sd (languages.headD [])) = true) →
      pickDocsWorkspace ex sd languages pn folders =
        folders.find? (fun f => ex (probePath f sd (languages.headD [])))) ∧
    ((pn = [] ∨ ∀ f ∈ folders, f.name ≠ pn) →
      (∀ f ∈ folders, ex (probePath f sd (languages.headD [])) = false) →
      pickDocsWorkspace ex sd languages pn folders = folders.head?) := by
  refine ⟨?_, ?_, ?_, ?_⟩
  · cases folders with
    | nil => simp [pickDocsWorkspace]
    | cons f0 fs =>
      simp only [pickDocsWorkspace]
      rw [if_neg (by simp)]
      constructor
      · intro h
        split at h
        · exact Option.noConfusion h
        · split at h
          · exact Option.noConfusion h
          · exact Option.noConfusion h
      · intro h
        exact List.noConfusion h
  · intro hpn hex
    cases folders with
    | nil =>
      rcases hex with ⟨f, hf, -⟩
      cases hf
    | cons f0 fs =>
      obtain ⟨g, hg⟩ : ∃ g, (f0 :: fs).find? (fun f => decide (f.name = pn)) = some g := by
        rcases hex with ⟨f, hf, hfn⟩
        cases hfind : (f0 :: fs).find? (fun f => decide (f.name = pn)) with
        | some g => exact ⟨g, rfl⟩
        | none =>
          rw [List.find?_eq_none] at hfind
          have hdec : decide (f.name = pn) = true := by simp [hfn]
          exact absurd hdec (by simpa using hfind f hf)
      simp only [pickDocsWorkspace]
      rw [if_neg (by simp), if_neg hpn, hg]
  · intro hno hex
    cases folders with
    | nil =>
      rcases hex with ⟨f, hf, -⟩
      cases hf
    | cons f0 fs =>
      have hnm : (if pn = [] then none
          else (f0 :: fs).find? (fun f => decide (f.name = pn))) = none := by
        by_cases hpn : pn = []
        · rw [if_pos hpn]
        · rcases hno with h | h
          · exact absurd h hpn
          · rw [if_neg hpn, List.find?_eq_none]
            intro x hx
            simp only [decide_eq_true_eq]
            exact h x hx
      obtain ⟨g, hg⟩ : ∃ g, (f0 :: fs).find?
          (fun f => ex (probePath f sd (languages.headD []))) = some g := by
        rcases hex with ⟨f, hf, hfp⟩
        cases hfind : (f0 :: fs).find?
            (fun f => ex (probePath f sd (languages.headD []))) with
        | some g => exact ⟨g, rfl⟩
        | none =>
          rw [List.find?_eq_none] at hfind
          exact absurd hfp (by simpa using hfind f hf)
      simp only [pickDocsWorkspace]
      rw [if_neg (by simp), hnm, hg]
  · intro hno hpr
    cases folders with
    | nil => simp [pickDocsWorkspace]
    | cons f0 fs =>
      have hnm : (if pn = [] then none
          else (f0 :: fs).find? (fun f => decide (f.name = pn))) = none := by
        by_cases hpn : pn = []
        · rw [if_pos hpn]
        · rcases hno with h | h
          · exact absurd h hpn
          · rw [if_neg hpn, List.find?_eq_none]
            intro x hx
            simp only [decide_eq_true_eq]
            exact h x hx
      have hpf : (f0 :: fs).find?
          (fun f => ex (probePath f sd (languages.headD []))) = none := by
        rw [List.find?_eq_none]
        intro x hx
        intro hcontra
        have hx2 : ex (probePath x sd (languages.headD [])) = true := hcontra
        rw [hpr x hx] at hx2
        exact Bool.noConfusion hx2
      simp only [pickDocsWorkspace]
      rw [if_neg (by simp), hnm, hpf]

/-- C7 witness: with folders `[A, B]` and preferred name `B`, folder `B`
wins even though the structural probe accepts every folder. -/
theorem pickDocsWorkspace_selection_witness :
    pickDocsWorkspace (fun _ => true) "static".data ["en".data] "B".data
      [⟨"A".data, "/a".data⟩, ⟨"B".data, "/b".data⟩] =
      [(⟨"A".data, "/a".data⟩ : WsFolder), ⟨"B".data, "/b".data⟩].find?
        (fun f => decide (f.name = "B".data)) :=
  ((pickDocsWorkspace_selection (fun _ => true) "static".data ["en".data] "B".data
    [⟨"A".data, "/a".data⟩, ⟨"B".data, "/b".data⟩] (by decide)).2.1
    (by decide) ⟨⟨"B".data, "/b".data⟩, by decide, rfl⟩)

end M5Docs
